import Mathlib

/-!
Shallow embedding of the StakeLab monitoring-tools repository, covering the
block-ingestion pipeline (`berachain-beacon-data/beacon-ingestion.py`), the
Umee price-feeder vote poller (`umee/umee-pricefeeder-monitor.py`) and the
beacond validator signing monitor
(`berachain-beacond-monitoring/beacond-monitor.py`).

Python functions are translated into executable Lean definitions; the MySQL
tables touched by the ingestion script are modelled as in-memory lists of
rows, an `INSERT ... ON DUPLICATE KEY UPDATE` statement as a keyed
insert-or-replace (`upsertByKey`), and a plain `INSERT` into an
`AUTO_INCREMENT` table as a list append.  HTTP calls become explicit
parameters carrying the response (or a transport failure).
-/

set_option autoImplicit false

namespace MonitoringTools

/-! ## Generic model of `INSERT ... ON DUPLICATE KEY UPDATE`

A MySQL table is a list of rows; a unique/primary key is a projection from
rows.  `ON DUPLICATE KEY UPDATE` with every non-key column listed replaces
the row with the matching key; when no key matches, the row is appended. -/

section Upsert

variable {α κ : Type} [DecidableEq κ]

def upsertByKey (key : α → κ) (rows : List α) (row : α) : List α :=
  if rows.any (fun r => key r = key row) then
    rows.map (fun r => if key r = key row then row else r)
  else
    rows ++ [row]

/-- Does some row of the table carry key `k`? -/
def hasKey (key : α → κ) (rows : List α) (k : κ) : Bool :=
  rows.any (fun r => key r = k)

/-- The last element of `l` whose key is `k`, tracked the way a sequence of
overwriting upserts tracks it. -/
def lastWith (key : α → κ) : List α → κ → Option α
  | [], _ => none
  | x :: xs, k =>
    match lastWith key xs k with
    | some y => some y
    | none => if key x = k then some x else none

end Upsert

end MonitoringTools

namespace BeaconIngestion

open MonitoringTools

/-! ## Data model of `beacon-ingestion.py`

Row types mirror the dataclasses and the `CREATE TABLE` statements of
`setup_tables`; only columns the script actually writes are modelled. -/

/-- A raw last-commit signature entry.  `isinstance(sig, dict)` failures are
the `nonDict` constructor; `sig.get("block_id_flag", 0)` defaults to `0` when
the field is absent and `sig.get("signature")` is `none` when absent
(both `None` and `""` are falsy in Python). -/
inductive SigEntry where
  | dict (blockIdFlag : Option Int) (signature : Option String)
  | nonDict
deriving Repr, DecidableEq

/-- Truthiness of `sig.get("signature")`. -/
def sigTruthy : Option String → Bool
  | none => false
  | some s => s ≠ ""

/-- One entry of the per-sig filter in `fetch_block_data`:
`isinstance(sig, dict) and sig.get("block_id_flag", 0) > 1 and sig.get("signature")`. -/
def isValidSignature : SigEntry → Bool
  | .dict flag sig => decide (1 < flag.getD 0) && sigTruthy sig
  | .nonDict => false

/-- `valid_signatures = sum(1 for sig in last_commit.get("signatures", []) if ...)`. -/
def validSignatures (sigs : List SigEntry) : Nat :=
  (sigs.filter isValidSignature).length

/-- One validator object of the `/validators` RPC response. -/
structure RpcValidator where
  address : String
  votingPower : Int
  proposerPriority : Int
deriving Repr, DecidableEq

/-- The linear proposer lookup in `fetch_block_data`: scan the validator list,
on the first address match take its voting power and priority, otherwise keep
the `(0, 0)` defaults. -/
def lookupProposer (proposerAddress : String) : List RpcValidator → Int × Int
  | [] => (0, 0)
  | v :: vs =>
    if v.address = proposerAddress then (v.votingPower, v.proposerPriority)
    else lookupProposer proposerAddress vs

/-- The parts of the `/block` RPC `result` the script reads. -/
structure RawBlock where
  height : Nat
  time : String
  proposerAddress : String
  chainId : String
  signatures : List SigEntry
  numTxs : Nat
  numEvidence : Nat
deriving Repr, DecidableEq

/-- The `/block` response body: whether the top-level `"result"` key is
present, and `result.get("block")` (absent block means "unit not produced"). -/
structure BlockResponse where
  hasResult : Bool
  block : Option RawBlock
deriving Repr, DecidableEq

/-- The `/validators` response body: whether `"result"` is present and
`result.get("validators", [])`. -/
structure ValidatorsResponse where
  hasResult : Bool
  validators : List RpcValidator
deriving Repr, DecidableEq

/-- Outcome of one HTTP round trip: `ok` carries the decoded JSON body;
`err` stands for a connection error or a `raise_for_status` failure — in
the Python code an exception that propagates to the enclosing `try`. -/
inductive Http (α : Type) where
  | ok (body : α)
  | err
deriving Repr, DecidableEq

/-- The dictionary `fetch_block_data` returns on success (the fields the
claims are about; gas and fee fields are the constant defaults the script
assigns). -/
structure BlockData where
  height : Nat
  time : String
  proposerAddress : String
  chainId : String
  numTxs : Nat
  numEvidence : Nat
  validSignatures : Nat
  totalSignatures : Nat
  totalVotingPower : Int
  proposerPriority : Int
deriving Repr, DecidableEq

/-- The dictionary literal `fetch_block_data` returns, as a function of the
fetched block and the proposer's resolved voting power and priority. -/
def mkPayload (blk : RawBlock) (votingPower proposerPriority : Int) : BlockData :=
  { height := blk.height
    time := blk.time
    proposerAddress := blk.proposerAddress
    chainId := blk.chainId
    numTxs := blk.numTxs
    numEvidence := blk.numEvidence
    validSignatures := validSignatures blk.signatures
    totalSignatures := blk.signatures.length
    totalVotingPower := votingPower
    proposerPriority := proposerPriority }

/-- `fetch_block_data(height)`.  Both round trips happen inside one `try`:
a transport failure of either request is caught by the single `except` and
the function returns `None`.  A missing `"result"` key or missing block
also yields `None`.  Only a *successful* validators response lacking
`"result"` (or lacking the proposer) leaves the `(0, 0)` defaults. -/
def fetch_block_data (blockResp : Http BlockResponse)
    (valResp : Http ValidatorsResponse) : Option BlockData :=
  match blockResp with
  | .err => none
  | .ok br =>
    if !br.hasResult then none
    else
      match br.block with
      | none => none
      | some blk =>
        match valResp with
        | .err => none
        | .ok vr =>
          let pv :=
            if vr.hasResult then lookupProposer blk.proposerAddress vr.validators
            else (0, 0)
          some (mkPayload blk pv.1 pv.2)

/-- The `Transaction` dataclass / `transactions` table row (the JSON list
columns are stored through `json.dumps`, modelled as the serialized string). -/
structure Transaction where
  hash : String
  height : Nat
  index : Nat
  gasWanted : Nat
  gasUsed : Nat
  fee : String
  memo : String
  events : String
  messages : String
  rawLog : String
deriving Repr, DecidableEq

/-- The `Evidence` dataclass / `evidence` table row (its table key is an
`AUTO_INCREMENT` surrogate id, so the row itself carries no key). -/
structure Evidence where
  height : Nat
  evidenceType : String
  validator : String
  totalVotingPower : Int
  timestamp : String
  rawData : String
deriving Repr, DecidableEq

/-- The `ValidatorSignature` dataclass / `signatures` table row (surrogate
`AUTO_INCREMENT` key, like `evidence`). -/
structure ValidatorSignature where
  height : Nat
  validatorAddress : String
  timestamp : String
  signature : String
  blockIdFlag : Int
  votingPower : Int
  proposerPriority : Int
deriving Repr, DecidableEq

/-- A `validator_sets` table row, keyed by `(height, validator_address)`. -/
structure ValidatorSetRow where
  height : Nat
  validatorAddress : String
  votingPower : Int
  proposerPriority : Int
deriving Repr, DecidableEq

/-- A `validators` table row, keyed by `address`. -/
structure ValidatorRow where
  address : String
  consensusPubkey : Option String
deriving Repr, DecidableEq

/-- The single row of `ingestion_progress` (`id = 1`). -/
structure ProgressRow where
  lastBlockProcessed : Nat
  lastValidatorUpdate : Nat
deriving Repr, DecidableEq

/-- A raw validator dictionary as consumed by `_store_validator_set`. -/
structure RawValidator where
  address : String
  pubKeyValue : Option String
  votingPower : Int
  proposerPriority : Int
deriving Repr, DecidableEq

/-- The visible state of the MySQL database: one list of rows per table the
ingestion writes, plus the single-row progress table (`none` before the
progress record is initialized). -/
structure Database where
  blocks : List BlockData
  transactions : List Transaction
  evidenceRows : List Evidence
  signatureRows : List ValidatorSignature
  validatorSets : List ValidatorSetRow
  validators : List ValidatorRow
  progress : Option ProgressRow
deriving Repr, DecidableEq

def emptyDb : Database :=
  { blocks := [], transactions := [], evidenceRows := [], signatureRows := []
    validatorSets := [], validators := [], progress := none }

/-- The record set one `SequenceUnit` produces: the block row plus its child
rows (the collections `process_batch` pops out of `block_data`). -/
structure NormalizedRecord where
  block : BlockData
  transactions : List Transaction
  evidence : List Evidence
  signatures : List ValidatorSignature
  validatorSet : List RawValidator
deriving Repr, DecidableEq

/-- `_store_block`: `INSERT INTO cosmos_blocks ... ON DUPLICATE KEY UPDATE`
with every non-key column listed; keyed by `height`. -/
def store_block (db : Database) (b : BlockData) : Database :=
  { db with blocks := MonitoringTools.upsertByKey BlockData.height db.blocks b }

/-- `_store_transactions`: per transaction an
`INSERT INTO transactions ... ON DUPLICATE KEY UPDATE`, keyed by `hash`. -/
def store_transactions (db : Database) (txs : List Transaction) : Database :=
  { db with transactions :=
      txs.foldl (MonitoringTools.upsertByKey Transaction.hash) db.transactions }

/-- `_store_evidence`: per evidence entry a plain `INSERT INTO evidence`
(no `ON DUPLICATE KEY UPDATE`; the `AUTO_INCREMENT` id makes every insert a
fresh row). -/
def store_evidence (db : Database) (es : List Evidence) : Database :=
  { db with evidenceRows := db.evidenceRows ++ es }

/-- `_store_signatures`: per signature a plain `INSERT INTO signatures`
(no `ON DUPLICATE KEY UPDATE`; fresh `AUTO_INCREMENT` row each time). -/
def store_signatures (db : Database) (sigs : List ValidatorSignature) : Database :=
  { db with signatureRows := db.signatureRows ++ sigs }

/-- The `validators`-table row `_store_validator_set` builds from a raw
validator dictionary. -/
def toValidatorRow (v : RawValidator) : ValidatorRow :=
  { address := v.address, consensusPubkey := v.pubKeyValue }

/-- The `validator_sets` row `_store_validator_set` builds for `height`. -/
def toValidatorSetRow (height : Nat) (v : RawValidator) : ValidatorSetRow :=
  { height := height, validatorAddress := v.address
    votingPower := v.votingPower, proposerPriority := v.proposerPriority }

/-- Key of a `validator_sets` row: `PRIMARY KEY (height, validator_address)`. -/
def validatorSetKey (r : ValidatorSetRow) : Nat × String :=
  (r.height, r.validatorAddress)

/-- `_store_validator_set`: for each validator, upsert the `validators` row
(keyed by `address`) then upsert the `validator_sets` row (keyed by
`(height, validator_address)`). -/
def store_validator_set (db : Database) (height : Nat)
    (vals : List RawValidator) : Database :=
  vals.foldl
    (fun d v =>
      { d with
          validators :=
            MonitoringTools.upsertByKey ValidatorRow.address d.validators (toValidatorRow v)
          validatorSets :=
            MonitoringTools.upsertByKey validatorSetKey d.validatorSets
              (toValidatorSetRow height v) })
    db

/-- The progress statement of `process_batch`:
`INSERT INTO ingestion_progress (id, last_block_processed, last_validator_update)
VALUES (1, %s, %s) ON DUPLICATE KEY UPDATE last_block_processed = new.…,
last_validator_update = new.…` — both columns are overwritten with `height`
whether or not the row exists. -/
def updateProgress (_p : Option ProgressRow) (height : Nat) : ProgressRow :=
  { lastBlockProcessed := height, lastValidatorUpdate := height }

/-- The stored progress row after a sequence of per-unit progress updates. -/
def commitSeq (p : Option ProgressRow) (units : List Nat) : Option ProgressRow :=
  units.foldl (fun acc u => some (updateProgress acc u)) p

/-- Modelled from the spec: the §4.3 `commit(unit)` contract — "advances
ProgressWatermark to `unit` if `unit` > current watermark; no-op/idempotent
otherwise".  Kept beside `updateProgress` to compare the code's overwrite
against the spec's monotonic max. -/
def specCommit (watermark : Nat) (unit : Nat) : Nat :=
  if unit > watermark then unit else watermark

/-- The store statements executed for one unit, in `process_batch` order. -/
inductive UnitStep where
  | sBlock
  | sTransactions
  | sEvidence
  | sSignatures
  | sValidatorSet
  | sProgress
deriving Repr, DecidableEq

def unitSteps : List UnitStep :=
  [.sBlock, .sTransactions, .sEvidence, .sSignatures, .sValidatorSet, .sProgress]

/-- Effect of one store statement of a unit on the visible database. -/
def applyStep (r : NormalizedRecord) (db : Database) : UnitStep → Database
  | .sBlock => store_block db r.block
  | .sTransactions => store_transactions db r.transactions
  | .sEvidence => store_evidence db r.evidence
  | .sSignatures => store_signatures db r.signatures
  | .sValidatorSet => store_validator_set db r.block.height r.validatorSet
  | .sProgress => { db with progress := some (updateProgress db.progress r.block.height) }

/-- Run the statements of one unit under the connection `get_connection`
hands out, which sets `conn.autocommit = True`: every executed statement is
immediately durable, so when statement `failAt` raises, the statements before
it stay visible — the `conn.rollback()` in the `except` branch has nothing
left to undo.  Returns the visible database and whether the unit succeeded. -/
def runSteps (r : NormalizedRecord) (db : Database) :
    List UnitStep → Option Nat → Database × Bool
  | [], _ => (db, true)
  | _ :: _, some 0 => (db, false)
  | s :: rest, failAt =>
    runSteps r (applyStep r db s) rest (failAt.map (· - 1))

/-- Persist one unit's record set, with `failAt` the index of the statement
that raises (`none` when all succeed). -/
def persistUnit (db : Database) (r : NormalizedRecord) (failAt : Option Nat) :
    Database × Bool :=
  runSteps r db unitSteps failAt

/-- The store sequence `process_batch` runs for one fetched unit when no
statement fails: block, transactions, evidence, signatures, validator set
(the child lists popped from `block_data`).  This is the `upsert` of one
`NormalizedRecord`, excluding the progress statement. -/
def upsertRecord (db : Database) (r : NormalizedRecord) : Database :=
  let db1 := store_block db r.block
  let db2 := store_transactions db1 r.transactions
  let db3 := store_evidence db2 r.evidence
  let db4 := store_signatures db3 r.signatures
  store_validator_set db4 r.block.height r.validatorSet

/-- What the remote side and the store do for one height inside
`process_batch`: the `fetch_block_data` result (`none` covers both transport
failure and an absent unit) and, when fetched, which store statement raises. -/
structure UnitBehavior where
  fetched : Option NormalizedRecord
  storeFailAt : Option Nat
deriving Repr

/-- The body of `process_batch`'s `for height in range(start, end + 1)` loop
over an explicit height list: a unit whose fetch returns `None` is skipped;
a unit whose store raises is caught, (no-op) rolled back and skipped via
`continue`; a fully stored unit bumps `blocks_processed` and commits. -/
def processHeights (env : Nat → UnitBehavior) :
    List Nat → Nat × Database → Nat × Database
  | [], acc => acc
  | h :: rest, (count, db) =>
    match (env h).fetched with
    | none => processHeights env rest (count, db)
    | some r =>
      if (persistUnit db r (env h).storeFailAt).2 then
        processHeights env rest (count + 1, (persistUnit db r (env h).storeFailAt).1)
      else
        processHeights env rest (count, (persistUnit db r (env h).storeFailAt).1)

/-- `process_batch(start_height, end_height)`: iterate the heights of
`range(start_height, end_height + 1)` and return the count of blocks
processed together with the visible database. -/
def process_batch (env : Nat → UnitBehavior) (db : Database)
    (startHeight endHeight : Nat) : Nat × Database :=
  processHeights env (List.range' startHeight (endHeight + 1 - startHeight)) (0, db)

/-- Does the unit at height `h` commit?  (`fetch_block_data` returned a
record and no store statement of the unit raised.) -/
def unitCommits (env : Nat → UnitBehavior) (h : Nat) : Bool :=
  (env h).fetched.isSome &&
    match (env h).storeFailAt with
    | none => true
    | some n => decide (unitSteps.length ≤ n)

/-! ### `_parse_timestamp`

The Python function works on `str`; the model works on `List Char`.
`strptime` on the two fixed formats is modelled by a fixed-width parser with
calendar validation (a parse failure is an exception the Python code catches,
falling back to the current wall-clock time). -/

/-- Numeric value of a digit list (most significant first). -/
def digitsToNat (l : List Char) : Nat :=
  l.foldl (fun n c => n * 10 + (c.toNat - 48)) 0

/-- `timestamp_str.rstrip('Z')`. -/
def rstripZ (l : List Char) : List Char :=
  (l.reverse.dropWhile (fun c => c = 'Z')).reverse

/-- Python `str.split('.')` (no maxsplit). -/
def splitDot : List Char → List (List Char)
  | [] => [[]]
  | c :: cs =>
    match splitDot cs with
    | [] => [[]]
    | p :: ps => if c = '.' then [] :: p :: ps else (c :: p) :: ps

/-- ASCII decimal digit test (`'0'` through `'9'`). -/
def isDigitChar (c : Char) : Bool :=
  48 ≤ c.toNat && c.toNat ≤ 57

/-- Gregorian leap-year test, as `datetime` validates the day of month. -/
def isLeapYear (y : Nat) : Bool :=
  (y % 4 = 0 && y % 100 ≠ 0) || y % 400 = 0

def daysInMonth (y m : Nat) : Nat :=
  if m = 2 then (if isLeapYear y then 29 else 28)
  else if m = 4 || m = 6 || m = 9 || m = 11 then 30
  else 31

/-- A parsed `datetime` at microsecond precision. -/
structure PyDateTime where
  year : Nat
  month : Nat
  day : Nat
  hour : Nat
  minute : Nat
  second : Nat
  microsecond : Nat
deriving Repr, DecidableEq

/-- `datetime.strptime(s, '%Y-%m-%dT%H:%M:%S')` on the fixed-width RFC-3339
main part: exact shape `YYYY-MM-DDTHH:MM:SS`, all digits, fields within the
ranges `datetime` accepts. -/
def parseMainPart (l : List Char) : Option PyDateTime :=
  match l with
  | [y1, y2, y3, y4, '-', m1, m2, '-', d1, d2, 'T',
     h1, h2, ':', n1, n2, ':', s1, s2] =>
    if [y1, y2, y3, y4, m1, m2, d1, d2, h1, h2, n1, n2, s1, s2].all isDigitChar then
      let y := digitsToNat [y1, y2, y3, y4]
      let mo := digitsToNat [m1, m2]
      let d := digitsToNat [d1, d2]
      let h := digitsToNat [h1, h2]
      let mi := digitsToNat [n1, n2]
      let se := digitsToNat [s1, s2]
      if 1 ≤ y && 1 ≤ mo && mo ≤ 12 && 1 ≤ d && d ≤ daysInMonth y mo &&
          h ≤ 23 && mi ≤ 59 && se ≤ 59 then
        some ⟨y, mo, d, h, mi, se, 0⟩
      else none
    else none
  | _ => none

/-- `strptime`'s `%f` directive on the (already truncated) fractional part:
1–6 digits, right-padded to microseconds. -/
def parseFrac (l : List Char) : Option Nat :=
  if l.length = 0 || 6 < l.length || !(l.all isDigitChar) then none
  else some (digitsToNat l * 10 ^ (6 - l.length))

/-- The parsing stage of `_parse_timestamp`: strip trailing `'Z'`; when a
`'.'` is present, split — the Python tuple unpacking
`main_part, fractional = timestamp_str.split('.')` raises unless there are
exactly two parts — truncate the fractional part to 6 digits and parse with
`%f`, otherwise parse the whole string without `%f`.  `none` is the
exception path of the Python `try`. -/
def parseTimestampCore (l : List Char) : Option PyDateTime :=
  let l := rstripZ l
  if l.contains '.' then
    match splitDot l with
    | [mainPart, fractional] =>
      let fractional := fractional.take 6
      match parseMainPart mainPart, parseFrac fractional with
      | some dt, some us => some { dt with microsecond := us }
      | _, _ => none
    | _ => none
  else
    parseMainPart l

/-- `dt.strftime('%Y-%m-%d %H:%M:%S.%f')[:-3]`: the rendered microseconds are
six zero-padded digits, so dropping the last three characters keeps exactly
the millisecond value `microsecond / 1000`. -/
def outputMillis (dt : PyDateTime) : Nat :=
  dt.microsecond / 1000

/-- `_parse_timestamp(timestamp_str)`: the parsed value, or — on any parse
failure — the current wall-clock time `now` (the `except` branch returns
`datetime.utcnow()` formatted at millisecond precision). -/
def parse_timestamp (now : PyDateTime) (l : List Char) : PyDateTime :=
  (parseTimestampCore l).getD now

/-- The millisecond value obtained by *truncating* a fractional-second digit
string to three digits (never rounding): the value of the first three digits,
right-padded with zeros when fewer than three are present. -/
def truncMillis (frac : List Char) : Nat :=
  digitsToNat (frac.take 3) * 10 ^ (3 - min frac.length 3)

/-! ### The `main()` progress loop -/

/-- What one cycle of the `while True:` loop in `main()` does after reading
the latest chain height: either sleep 5 seconds and re-check (`continue`),
or run `ingest_blocks(start, latest)` with no sleep afterwards.  There is no
constructor for stopping: the loop only ends through an external signal
(`KeyboardInterrupt` / `SIGTERM`). -/
inductive CycleAction where
  | sleepPoll (seconds : Nat)
  | ingest (startHeight endHeight : Nat)
deriving Repr, DecidableEq

/-- One cycle of `main()`'s loop: `start_height = last_processed + 1`; if
`start_height > latest_height` wait 5 seconds and re-check, else process
`[start_height, latest_height]`. -/
def mainCycle (lastProcessed latestHeight : Nat) : CycleAction :=
  let startHeight := lastProcessed + 1
  if startHeight > latestHeight then .sleepPoll 5
  else .ingest startHeight latestHeight

/-- The loop itself, observed for `fuel` cycles: cycle `i` reads the latest
chain height `latestAt i`; after an `ingest` action the stored watermark is
whatever the batch run left in `ingestion_progress` (`wmAfter i`), after a
sleep it is unchanged.  `fuel` is only the external observation cutoff —
the loop body never terminates on its own. -/
def mainLoop (latestAt : Nat → Nat) (wmAfter : Nat → Nat) :
    Nat → Nat → Nat → List CycleAction
  | 0, _, _ => []
  | fuel + 1, i, wm =>
    match mainCycle wm (latestAt i) with
    | .sleepPoll _ => mainCycle wm (latestAt i) :: mainLoop latestAt wmAfter fuel (i + 1) wm
    | .ingest _ _ => mainCycle wm (latestAt i) :: mainLoop latestAt wmAfter fuel (i + 1) (wmAfter i)

/-! ### Concrete example values used to evaluate the model -/

/-- An example fetched block with no transactions and no signatures. -/
def blk0 : RawBlock :=
  { height := 100, time := "2024-01-01T00:00:00Z", proposerAddress := "AAA"
    chainId := "chain-1", signatures := [], numTxs := 0, numEvidence := 0 }

/-- An example block-summary row at height 100. -/
def blockEx : BlockData :=
  { height := 100, time := "2024-01-01T00:00:00Z", proposerAddress := "AAA"
    chainId := "chain-1", numTxs := 0, numEvidence := 0, validSignatures := 0
    totalSignatures := 0, totalVotingPower := 0, proposerPriority := 0 }

/-- An example signature row for height 100. -/
def sigEx : ValidatorSignature :=
  { height := 100, validatorAddress := "AAA", timestamp := "2024-01-01 00:00:00.000"
    signature := "sig", blockIdFlag := 2, votingPower := 10, proposerPriority := 0 }

/-- An example evidence row for height 100. -/
def evEx : Evidence :=
  { height := 100, evidenceType := "duplicate_vote", validator := "AAA"
    totalVotingPower := 10, timestamp := "2024-01-01 00:00:00.000", rawData := "{}" }

/-- An example normalized record: one block with one signature child row and
one evidence child row. -/
def recEx : NormalizedRecord :=
  { block := blockEx, transactions := [], evidence := [evEx]
    signatures := [sigEx], validatorSet := [] }

/-- The spec's partial-failure scenario: unit 42 fails (its fetch/transform
yields nothing), every other unit fetches and stores cleanly. -/
def failing42Env : Nat → UnitBehavior := fun h =>
  if h = 42 then { fetched := none, storeFailAt := none }
  else
    { fetched := some
        { block := { blockEx with height := h }, transactions := []
          evidence := [], signatures := [], validatorSet := [] }
      storeFailAt := none }

end BeaconIngestion

namespace UmeeMonitor

/-! ## `umee/umee-pricefeeder-monitor.py` -/

/-- One response of the `aggregate_votes` endpoint. -/
structure VotesResponse where
  statusCode : Nat
  aggregateVotes : List String
deriving Repr, DecidableEq

/-- What `get_req` ends with: the decoded data once a non-empty vote list
arrives, or the `print_error` path, which calls `sys.exit(-1)`. -/
inductive GetReqOutcome where
  | votes (vs : List String)
  | exitError
deriving Repr, DecidableEq

/-- `get_req(url)`, which calls itself recursively while the endpoint keeps
answering 200 with an empty `aggregate_votes` list.  `resps i` is the
response to the `i`-th request; `fuel` bounds how many calls we are willing
to observe — `none` means the recursion was still running (at depth `fuel`)
when observation stopped.  The source has no depth bound and no backoff:
each recursive call issues the next request immediately. -/
def get_req (resps : Nat → VotesResponse) : Nat → Nat → Option GetReqOutcome
  | 0, _ => none
  | fuel + 1, i =>
    let r := resps i
    if r.statusCode = 200 then
      if r.aggregateVotes.length > 0 then some (.votes r.aggregateVotes)
      else get_req resps fuel (i + 1)
    else some .exitError

end UmeeMonitor

namespace BeacondMonitor

/-! ## `berachain-beacond-monitoring/beacond-monitor.py` -/

/-- The per-validator gauge values one `update_metrics` call sets. -/
structure MetricUpdate where
  blocksSigned : Nat
  blocksMissed : Nat
  signingPercentage : ℚ
deriving Repr, DecidableEq

/-- `update_metrics(addr, signed, total)`: the whole body sits in a
`try/except`, and `percentage = (signed / total) * 100` is computed before
any gauge is set — with `total = 0` the `ZeroDivisionError` is caught and
printed, no gauge is touched and no exception escapes.  `none` is that
caught-error path. -/
def update_metrics (signed total : Nat) : Option MetricUpdate :=
  if total = 0 then none
  else some
    { blocksSigned := signed
      blocksMissed := total - signed
      signingPercentage := ((signed : ℚ) / (total : ℚ)) * 100 }

/-- The parts of one fetched block the counting loop reads: whether the
companion validator-set request produced usable data, and the last-commit
signature entries as `(validator_address, block_id_flag)` pairs. -/
structure BlockView where
  valSetOk : Bool
  signatures : List (String × Int)
deriving Repr, DecidableEq

/-- Is `addr` in `signed_vals` for this block: some signature entry names it
with `block_id_flag > 1`? -/
def signedInBlock (bv : BlockView) (addr : String) : Bool :=
  bv.signatures.any (fun sig => sig.1 = addr && decide (1 < sig.2))

/-- The counting loop of `monitor_validators` over the height window:
a block that fails to fetch is skipped without counting; a fetched block
bumps `blocks_checked`, and once that exceeds `total_blocks = 100` the loop
breaks *before* counting the block; a missing validator set skips the
signature counting but keeps the `blocks_checked` increment; otherwise every
monitored address found in `signed_vals` gains one signed block. -/
def countBlocks (addrs : List String) (blockAt : Nat → Option BlockView) :
    List Nat → Nat → (String → Nat) → Nat × (String → Nat)
  | [], checked, counts => (checked, counts)
  | h :: rest, checked, counts =>
    match blockAt h with
    | none => countBlocks addrs blockAt rest checked counts
    | some bv =>
      let checked := checked + 1
      if checked > 100 then (checked, counts)
      else if !bv.valSetOk then countBlocks addrs blockAt rest checked counts
      else
        countBlocks addrs blockAt rest checked
          (fun a => if addrs.contains a && signedInBlock bv a then counts a + 1 else counts a)

/-- One monitoring cycle's count pass, started from zero counters. -/
def monitorCycle (addrs : List String) (blockAt : Nat → Option BlockView)
    (heights : List Nat) : Nat × (String → Nat) :=
  countBlocks addrs blockAt heights 0 (fun _ => 0)

/-- The per-address summary `monitor_validators` reports after the count
pass: `actual_total_blocks = min(blocks_checked, total_blocks)`,
`signed = min(signed_counts[addr], actual_total_blocks)`, and
`percentage = (signed / actual_total_blocks) * 100 if actual_total_blocks > 0 else 0`. -/
def reportFor (checked : Nat) (counts : String → Nat) (addr : String) :
    Nat × Nat × ℚ :=
  let actualTotal := min checked 100
  let signed := min (counts addr) actualTotal
  let percentage : ℚ :=
    if actualTotal > 0 then ((signed : ℚ) / (actualTotal : ℚ)) * 100 else 0
  (signed, actualTotal, percentage)

end BeacondMonitor

/-! # Verification -/

namespace MonitoringTools

section UpsertTheorems

variable {α κ : Type} [DecidableEq κ] (key : α → κ)

theorem bool_eq_of_iff {a b : Bool} (h : a = true ↔ b = true) : a = b := by
  cases a <;> cases b <;> simp_all

theorem map_id_of_mem {l : List α} {f : α → α} (h : ∀ x ∈ l, f x = x) :
    l.map f = l := by
  induction l with
  | nil => rfl
  | cons a t ih =>
    simp only [List.map_cons, h a (List.mem_cons_self a t)]
    rw [ih fun x hx => h x (List.mem_cons_of_mem a hx)]

theorem lastWith_cons (a : α) (t : List α) (k : κ) :
    lastWith key (a :: t) k
      = match lastWith key t k with
        | some y => some y
        | none => if key a = k then some a else none := rfl

theorem lastWith_cons_of_some {a : α} {t : List α} {k : κ} {y : α}
    (h : lastWith key t k = some y) : lastWith key (a :: t) k = some y := by
  rw [lastWith_cons, h]

theorem lastWith_cons_of_none {a : α} {t : List α} {k : κ}
    (h : lastWith key t k = none) :
    lastWith key (a :: t) k = if key a = k then some a else none := by
  rw [lastWith_cons, h]

theorem lastWith_eq_none {l : List α} {k : κ} :
    lastWith key l k = none ↔ ∀ x ∈ l, key x ≠ k := by
  induction l with
  | nil => simp [lastWith]
  | cons a t ih =>
    cases hl : lastWith key t k with
    | some y =>
      rw [lastWith_cons_of_some key hl]
      simp only [reduceCtorEq, false_iff, not_forall]
      have : ¬ ∀ x ∈ t, key x ≠ k := by
        rw [← ih]; simp [hl]
      push_neg at this
      rcases this with ⟨x, hx, hk⟩
      exact ⟨x, List.mem_cons_of_mem a hx, by simp [hk]⟩
    | none =>
      rw [lastWith_cons_of_none key hl]
      have ht : ∀ x ∈ t, key x ≠ k := ih.mp hl
      by_cases ha : key a = k
      · rw [if_pos ha]
        simp only [reduceCtorEq, false_iff, not_forall]
        exact ⟨a, List.mem_cons_self a t, by simp [ha]⟩
      · rw [if_neg ha]
        simp only [true_iff]
        intro x hx
        rcases List.mem_cons.mp hx with rfl | hx
        · exact ha
        · exact ht x hx

theorem upsert_eq_map {rows : List α} {row : α}
    (h : rows.any (fun r => key r = key row) = true) :
    upsertByKey key rows row =
      rows.map (fun r => if key r = key row then row else r) := by
  unfold upsertByKey
  rw [if_pos h]

theorem upsert_eq_append {rows : List α} {row : α}
    (h : ¬ rows.any (fun r => key r = key row) = true) :
    upsertByKey key rows row = rows ++ [row] := by
  unfold upsertByKey
  rw [if_neg h]

theorem hasKey_upsert (rows : List α) (row : α) (k : κ) :
    hasKey key (upsertByKey key rows row) k
      = (hasKey key rows k || decide (key row = k)) := by
  apply bool_eq_of_iff
  by_cases h : rows.any (fun r => key r = key row) = true
  · rw [upsert_eq_map key h]
    simp only [hasKey, List.any_map, List.any_eq_true, Bool.or_eq_true,
      decide_eq_true_iff, Function.comp]
    constructor
    · rintro ⟨r, hr, hk⟩
      by_cases hcase : key r = key row
      · simp only [if_pos hcase] at hk
        exact Or.inr hk
      · simp only [if_neg hcase] at hk
        exact Or.inl ⟨r, hr, hk⟩
    · rintro (⟨r, hr, hk⟩ | hk)
      · by_cases hcase : key r = key row
        · rcases List.any_eq_true.mp h with ⟨r0, hr0, h0⟩
          refine ⟨r0, hr0, ?_⟩
          have h0' : key r0 = key row := of_decide_eq_true h0
          simp only [if_pos h0']
          rw [← hcase, hk]
        · exact ⟨r, hr, by simp only [if_neg hcase]; exact hk⟩
      · rcases List.any_eq_true.mp h with ⟨r0, hr0, h0⟩
        have h0' : key r0 = key row := of_decide_eq_true h0
        exact ⟨r0, hr0, by simp only [if_pos h0']; exact hk⟩
  · rw [upsert_eq_append key h]
    simp [hasKey, List.any_append]

theorem hasKey_map_replace (rows : List α) (a : α) (k : κ) :
    hasKey key (rows.map (fun r => if key r = key a then a else r)) k
      = hasKey key rows k := by
  apply bool_eq_of_iff
  simp only [hasKey, List.any_map, List.any_eq_true, Function.comp,
    decide_eq_true_iff]
  constructor
  · rintro ⟨r, hr, hk⟩
    by_cases hcase : key r = key a
    · simp only [if_pos hcase] at hk
      exact ⟨r, hr, by rw [hcase, hk]⟩
    · simp only [if_neg hcase] at hk
      exact ⟨r, hr, hk⟩
  · rintro ⟨r, hr, hk⟩
    refine ⟨r, hr, ?_⟩
    by_cases hcase : key r = key a
    · simp only [if_pos hcase]
      rw [← hcase, hk]
    · simp only [if_neg hcase]
      exact hk

theorem hasKey_foldl_upsert (l : List α) : ∀ (rows : List α) (k : κ),
    hasKey key (l.foldl (upsertByKey key) rows) k
      = (hasKey key rows k || l.any (fun x => key x = k)) := by
  induction l with
  | nil => intro rows k; simp
  | cons a t ih =>
    intro rows k
    rw [List.foldl_cons, ih, hasKey_upsert]
    simp [Bool.or_assoc]

theorem mem_upsert_of_key_ne {rows : List α} {b r' : α}
    (hmem : r' ∈ upsertByKey key rows b) (hne : key r' ≠ key b) : r' ∈ rows := by
  by_cases h : rows.any (fun r => key r = key b) = true
  · rw [upsert_eq_map key h] at hmem
    rcases List.mem_map.mp hmem with ⟨r, hr, heq⟩
    by_cases hcase : key r = key b
    · simp only [if_pos hcase] at heq
      exact absurd (heq ▸ rfl : key r' = key b) hne
    · simp only [if_neg hcase] at heq
      exact heq ▸ hr
  · rw [upsert_eq_append key h] at hmem
    rcases List.mem_append.mp hmem with hr | hr
    · exact hr
    · rcases List.mem_singleton.mp hr with rfl
      exact absurd rfl hne

theorem mem_upsert_self_key {rows : List α} {a r' : α}
    (hmem : r' ∈ upsertByKey key rows a) (hk : key r' = key a) : r' = a := by
  by_cases h : rows.any (fun r => key r = key a) = true
  · rw [upsert_eq_map key h] at hmem
    rcases List.mem_map.mp hmem with ⟨r, hr, heq⟩
    by_cases hcase : key r = key a
    · simpa only [if_pos hcase] using heq.symm
    · simp only [if_neg hcase] at heq
      exact absurd (heq ▸ hk) hcase
  · rw [upsert_eq_append key h] at hmem
    rcases List.mem_append.mp hmem with hr | hr
    · exact absurd (List.any_eq_true.mpr ⟨r', hr, decide_eq_true hk⟩) h
    · exact List.mem_singleton.mp hr

theorem mem_foldl_upsert_inherited (t : List α) : ∀ (rows : List α) (r' : α) (k : κ),
    (∀ z ∈ t, key z ≠ k) → r' ∈ t.foldl (upsertByKey key) rows → key r' = k →
      r' ∈ rows := by
  induction t with
  | nil => intro rows r' k _ hmem _; simpa using hmem
  | cons b t' ih =>
    intro rows r' k hz hmem hk
    rw [List.foldl_cons] at hmem
    have hb : key b ≠ k := hz b (List.mem_cons_self b t')
    have h1 : r' ∈ upsertByKey key rows b :=
      ih _ r' k (fun z hz' => hz z (List.mem_cons_of_mem b hz')) hmem hk
    exact mem_upsert_of_key_ne key h1 (by rw [hk]; exact fun h => hb h.symm)

theorem foldl_upsert_eq_map (l : List α) : ∀ (rows : List α),
    (∀ x ∈ l, hasKey key rows (key x) = true) →
    l.foldl (upsertByKey key) rows
      = rows.map (fun r => (lastWith key l (key r)).getD r) := by
  induction l with
  | nil =>
    intro rows _
    simp [lastWith, map_id_of_mem]
  | cons a t ih =>
    intro rows h
    have ha : rows.any (fun r => key r = key a) = true :=
      h a (List.mem_cons_self a t)
    rw [List.foldl_cons, upsert_eq_map key ha, ih _ ?keys, List.map_map]
    case keys =>
      intro x hx
      rw [hasKey_map_replace]
      exact h x (List.mem_cons_of_mem a hx)
    congr 1
    funext r
    simp only [Function.comp]
    by_cases hr : key r = key a
    · rw [if_pos hr, hr]
      cases hl : lastWith key t (key a) with
      | some y => rw [lastWith_cons_of_some key hl]; rfl
      | none => rw [lastWith_cons_of_none key hl, if_pos rfl]; rfl
    · rw [if_neg hr]
      cases hl : lastWith key t (key r) with
      | some y => rw [lastWith_cons_of_some key hl]
      | none =>
        have hne : ¬ key a = key r := fun h' => hr h'.symm
        rw [lastWith_cons_of_none key hl, if_neg hne]

theorem foldl_upsert_last (l : List α) : ∀ (rows : List α) (r' x : α),
    r' ∈ l.foldl (upsertByKey key) rows → lastWith key l (key r') = some x →
      r' = x := by
  induction l with
  | nil => intro rows r' x _ hlast; simp [lastWith] at hlast
  | cons a t ih =>
    intro rows r' x hmem hlast
    rw [List.foldl_cons] at hmem
    cases hl : lastWith key t (key r') with
    | some y =>
      have hxy : y = x := by
        rw [lastWith_cons_of_some key hl] at hlast
        exact Option.some.inj hlast
      exact hxy ▸ ih _ r' y hmem hl
    | none =>
      rw [lastWith_cons_of_none key hl] at hlast
      by_cases hak : key a = key r'
      · rw [if_pos hak] at hlast
        have hxa : a = x := Option.some.inj hlast
        have hin : r' ∈ upsertByKey key rows a :=
          mem_foldl_upsert_inherited key t _ r' (key r')
            ((lastWith_eq_none key).mp hl) hmem rfl
        exact hxa ▸ mem_upsert_self_key key hin hak.symm
      · rw [if_neg hak] at hlast
        exact Option.noConfusion hlast

theorem foldl_upsert_idem (l : List α) (rows : List α) :
    l.foldl (upsertByKey key) (l.foldl (upsertByKey key) rows)
      = l.foldl (upsertByKey key) rows := by
  have hall : ∀ x ∈ l, hasKey key (l.foldl (upsertByKey key) rows) (key x) = true := by
    intro x hx
    rw [hasKey_foldl_upsert]
    have : l.any (fun y => key y = key x) = true :=
      List.any_eq_true.mpr ⟨x, hx, decide_eq_true rfl⟩
    simp [this]
  rw [foldl_upsert_eq_map key l _ hall]
  exact map_id_of_mem fun r' hr' => by
    cases hl : lastWith key l (key r') with
    | none => rfl
    | some x => simpa using (foldl_upsert_last key l rows r' x hr' hl).symm

theorem upsertByKey_idem (rows : List α) (row : α) :
    upsertByKey key (upsertByKey key rows row) row = upsertByKey key rows row := by
  simpa using foldl_upsert_idem key [row] rows

end UpsertTheorems

end MonitoringTools

namespace BeaconIngestion

theorem commitSeq_cons (p : Option ProgressRow) (u : Nat) (t : List Nat) :
    commitSeq p (u :: t) = commitSeq (some (updateProgress p u)) t := rfl

theorem commitSeq_eq_getLast (units : List Nat) :
    ∀ (p : Option ProgressRow) (h : units ≠ []),
      commitSeq p units = some ⟨units.getLast h, units.getLast h⟩ := by
  induction units with
  | nil => intro p h; exact absurd rfl h
  | cons u t ih =>
    intro p h
    cases t with
    | nil => rfl
    | cons b t' =>
      rw [commitSeq_cons, List.getLast_cons (by simp)]
      exact ih (some (updateProgress p u)) (by simp)

theorem specCommit_eq_max (w u : Nat) : specCommit w u = max w u := by
  unfold specCommit
  by_cases h : u > w
  · rw [if_pos h, Nat.max_eq_right (Nat.le_of_lt h)]
  · rw [if_neg h, Nat.max_eq_left (Nat.not_lt.mp h)]

/-- C1: the progress-table statement of `process_batch` is
`INSERT ... ON DUPLICATE KEY UPDATE last_block_processed = new value`: a
plain overwrite, not a monotonic max.  Amended: after any non-empty sequence
of `commit(unit)` calls the stored watermark equals the **last** unit
committed — not the maximum, and it decreases whenever a smaller unit commits
after a larger one — whereas the spec's §4.3 commit (`specCommit`) computes a
running maximum. -/
theorem c1_watermark_plain_overwrite (p : Option ProgressRow) (units : List Nat)
    (h : units ≠ []) :
    commitSeq p units = some ⟨units.getLast h, units.getLast h⟩ ∧
    (∀ w0 : Nat, units.foldl specCommit w0 = units.foldl max w0) := by
  constructor
  · exact commitSeq_eq_getLast units p h
  · intro w0
    have : specCommit = fun w u => max w u := by
      funext w u
      exact specCommit_eq_max w u
    rw [this]

/-- C1 counterexample: committing unit 5 and then unit 3 (an out-of-order
pair, as concurrent sub-range workers can produce) leaves the stored
watermark at 3, although the maximum committed unit is 5 and the watermark
had already been 5 — it regressed, contradicting "equals the maximum unit
committed and never decreases". -/
theorem c1_counterexample :
    commitSeq (some ⟨0, 0⟩) [5, 3] = some ⟨3, 3⟩ ∧
    commitSeq (some ⟨0, 0⟩) [5] = some ⟨5, 5⟩ ∧
    [5, 3].foldl max 0 = 5 ∧ (3 : Nat) ≠ 5 := by
  refine ⟨rfl, rfl, rfl, by decide⟩

/-- Witness for the C1 theorem at the concrete commit sequence `[5, 3]`. -/
theorem c1_watermark_plain_overwrite_witness :
    commitSeq (some ⟨0, 0⟩) [5, 3] = some ⟨3, 3⟩ ∧
    [5, 3].foldl specCommit 0 = [5, 3].foldl max 0 :=
  ⟨(c1_watermark_plain_overwrite (some ⟨0, 0⟩) [5, 3] (by decide)).1,
   (c1_watermark_plain_overwrite (some ⟨0, 0⟩) [5, 3] (by decide)).2 0⟩

theorem store_validator_set_eq (db : Database) (height : Nat)
    (vals : List RawValidator) :
    store_validator_set db height vals =
      { db with
          validators := (vals.map toValidatorRow).foldl
            (MonitoringTools.upsertByKey ValidatorRow.address) db.validators
          validatorSets := (vals.map (toValidatorSetRow height)).foldl
            (MonitoringTools.upsertByKey validatorSetKey) db.validatorSets } := by
  induction vals generalizing db with
  | nil => rfl
  | cons v vs ih =>
    rw [show store_validator_set db height (v :: vs)
        = store_validator_set
            { db with
                validators := MonitoringTools.upsertByKey ValidatorRow.address
                  db.validators (toValidatorRow v)
                validatorSets := MonitoringTools.upsertByKey validatorSetKey
                  db.validatorSets (toValidatorSetRow height v) } height vs from rfl,
      ih]
    rfl

theorem upsertRecord_fields (db : Database) (r : NormalizedRecord) :
    upsertRecord db r =
      { blocks := MonitoringTools.upsertByKey BlockData.height db.blocks r.block
        transactions := r.transactions.foldl
          (MonitoringTools.upsertByKey Transaction.hash) db.transactions
        evidenceRows := db.evidenceRows ++ r.evidence
        signatureRows := db.signatureRows ++ r.signatures
        validatorSets := (r.validatorSet.map (toValidatorSetRow r.block.height)).foldl
          (MonitoringTools.upsertByKey validatorSetKey) db.validatorSets
        validators := (r.validatorSet.map toValidatorRow).foldl
          (MonitoringTools.upsertByKey ValidatorRow.address) db.validators
        progress := db.progress } := by
  show store_validator_set
      (store_signatures (store_evidence (store_transactions (store_block db r.block)
        r.transactions) r.evidence) r.signatures) r.block.height r.validatorSet = _
  rw [store_validator_set_eq]
  rfl

/-- C2 (amended): applying the store sequence twice with the identical
`NormalizedRecord` leaves the keyed tables unchanged — blocks (keyed by
height), transactions (keyed by hash), validator-set rows (keyed by
`(height, validator address)`) and validator rows (keyed by address) are
identical after the second application — but the surrogate-keyed
`signatures` and `evidence` tables use plain `INSERT`, so the second
application appends one fresh row per signature and per evidence entry,
changing those row counts. -/
theorem c2_upsert_partially_idempotent (db : Database) (r : NormalizedRecord) :
    (upsertRecord (upsertRecord db r) r).blocks = (upsertRecord db r).blocks ∧
    (upsertRecord (upsertRecord db r) r).transactions
      = (upsertRecord db r).transactions ∧
    (upsertRecord (upsertRecord db r) r).validatorSets
      = (upsertRecord db r).validatorSets ∧
    (upsertRecord (upsertRecord db r) r).validators
      = (upsertRecord db r).validators ∧
    (upsertRecord (upsertRecord db r) r).signatureRows
      = (upsertRecord db r).signatureRows ++ r.signatures ∧
    (upsertRecord (upsertRecord db r) r).evidenceRows
      = (upsertRecord db r).evidenceRows ++ r.evidence := by
  rw [upsertRecord_fields db r, upsertRecord_fields]
  refine ⟨?_, ?_, ?_, ?_, rfl, rfl⟩
  · exact MonitoringTools.upsertByKey_idem BlockData.height db.blocks r.block
  · exact MonitoringTools.foldl_upsert_idem Transaction.hash r.transactions
      db.transactions
  · exact MonitoringTools.foldl_upsert_idem validatorSetKey
      (r.validatorSet.map (toValidatorSetRow r.block.height)) db.validatorSets
  · exact MonitoringTools.foldl_upsert_idem ValidatorRow.address
      (r.validatorSet.map toValidatorRow) db.validators

/-- C2 counterexample: storing the record `recEx` (one signature row, one
evidence row) twice doubles the `signatures` and `evidence` row counts —
`_store_signatures` and `_store_evidence` are plain `INSERT`s into
`AUTO_INCREMENT` tables, so the claimed "no duplicate rows and no changed
row count for every row kind" fails for those two kinds. -/
theorem c2_counterexample :
    (upsertRecord (upsertRecord emptyDb recEx) recEx).signatureRows.length = 2 ∧
    (upsertRecord emptyDb recEx).signatureRows.length = 1 ∧
    (upsertRecord (upsertRecord emptyDb recEx) recEx).evidenceRows.length = 2 ∧
    (upsertRecord emptyDb recEx).evidenceRows.length = 1 := by
  refine ⟨rfl, rfl, rfl, rfl⟩

/-- C3: `get_connection` sets `conn.autocommit = True`, so every statement of
a unit commits durably as soon as it executes; when a later statement of the
same unit raises, the `conn.rollback()` in `process_batch`'s `except` branch
has nothing to undo.  Evaluating the model at the failing input: the unit's
block insert succeeds, its transactions statement (index 1) raises — the
unit is reported failed and the progress row is untouched, yet the block row
is already visible to readers, contradicting the claimed
all-or-nothing unit transaction. -/
theorem c3_autocommit_partial_rows_visible :
    (persistUnit emptyDb recEx (some 1)).2 = false ∧
    (persistUnit emptyDb recEx (some 1)).1.blocks = [blockEx] ∧
    (persistUnit emptyDb recEx (some 1)).1.progress = none := by
  refine ⟨rfl, rfl, rfl⟩

/-- C4: for every signature list, `fetch_block_data`'s valid-signature count
equals the number of (dictionary) entries whose `block_id_flag` exceeds 1
(COMMIT = 2 or NIL = 3) *and* whose signature value is non-empty; on the
spec's test vector `[{2,"a"}, {1,""}, {3,"b"}, {2,""}]` the count is 2. -/
theorem c4_valid_signature_count (sigs : List SigEntry) :
    validSignatures sigs
      = (sigs.filter fun s =>
          match s with
          | .dict flag sigValue =>
              decide (1 < flag.getD 0) && decide (sigValue.getD "" ≠ "")
          | .nonDict => false).length ∧
    validSignatures
      [.dict (some 2) (some "a"), .dict (some 1) (some ""),
       .dict (some 3) (some "b"), .dict (some 2) (some "")] = 2 := by
  constructor
  · unfold validSignatures
    congr 1
    refine List.filter_congr fun s _ => ?_
    cases s with
    | dict flag sigValue => cases sigValue <;> rfl
    | nonDict => rfl
  · decide

theorem lookupProposer_not_found {addr : String} {vs : List RpcValidator}
    (h : ∀ v ∈ vs, v.address ≠ addr) : lookupProposer addr vs = (0, 0) := by
  induction vs with
  | nil => rfl
  | cons v t ih =>
    rw [show lookupProposer addr (v :: t)
        = if v.address = addr then (v.votingPower, v.proposerPriority)
          else lookupProposer addr t from rfl,
      if_neg (h v (List.mem_cons_self v t))]
    exact ih fun x hx => h x (List.mem_cons_of_mem v hx)

/-- C6 (amended): a transport-level failure of the companion validator-set
fetch *fails the unit* — `val_response.raise_for_status()` sits in the same
`try` as the block fetch, so the exception reaches the single `except` and
`fetch_block_data` returns `None`.  Only a *successful* validators response
that lacks the `"result"` key, or whose validator list does not contain the
proposer, degrades the voting-power and proposer-priority fields to zero
while still producing the unit's payload. -/
theorem c6_validator_fetch_failure_fails_unit (blk : RawBlock)
    (vr : ValidatorsResponse) :
    fetch_block_data (.ok ⟨true, some blk⟩) .err = none ∧
    (vr.hasResult = false →
      fetch_block_data (.ok ⟨true, some blk⟩) (.ok vr) = some (mkPayload blk 0 0)) ∧
    ((∀ v ∈ vr.validators, v.address ≠ blk.proposerAddress) →
      fetch_block_data (.ok ⟨true, some blk⟩) (.ok vr) = some (mkPayload blk 0 0)) := by
  refine ⟨rfl, ?_, ?_⟩
  · intro h
    simp [fetch_block_data, h]
  · intro h
    by_cases hres : vr.hasResult
    · simp [fetch_block_data, hres, lookupProposer_not_found h]
    · simp [fetch_block_data, hres]

/-- C6 counterexample: for a block that fetches successfully, a failing
validator-set round trip makes `fetch_block_data` return `None` — the unit
fails — rather than producing the payload with zeroed voting-power fields,
which is what the very same input produces when the validators *response*
merely lacks its `"result"` payload. -/
theorem c6_counterexample :
    fetch_block_data (.ok ⟨true, some blk0⟩) .err = none ∧
    fetch_block_data (.ok ⟨true, some blk0⟩) (.ok ⟨false, []⟩)
      = some (mkPayload blk0 0 0) := ⟨rfl, rfl⟩

/-- Witness for the C6 theorem: the degraded-to-zero outcomes at concrete
inputs (missing `"result"`; proposer absent from the validator list). -/
theorem c6_validator_fetch_failure_fails_unit_witness :
    fetch_block_data (.ok ⟨true, some blk0⟩) (.ok ⟨false, []⟩)
      = some (mkPayload blk0 0 0) ∧
    fetch_block_data (.ok ⟨true, some blk0⟩) (.ok ⟨true, [⟨"BBB", 5, 7⟩]⟩)
      = some (mkPayload blk0 0 0) :=
  ⟨(c6_validator_fetch_failure_fails_unit blk0 ⟨false, []⟩).2.1 rfl,
   (c6_validator_fetch_failure_fails_unit blk0 ⟨true, [⟨"BBB", 5, 7⟩]⟩).2.2
     (by decide)⟩

theorem runSteps_snd (steps : List UnitStep) : ∀ (r : NormalizedRecord)
    (db : Database) (failAt : Option Nat),
    (runSteps r db steps failAt).2
      = match failAt with
        | none => true
        | some n => decide (steps.length ≤ n) := by
  induction steps with
  | nil =>
    intro r db failAt
    cases failAt with
    | none => rfl
    | some n => simp [runSteps, Nat.zero_le]
  | cons s rest ih =>
    intro r db failAt
    cases failAt with
    | none => simpa [runSteps] using ih r (applyStep r db s) none
    | some n =>
      cases n with
      | zero => simp [runSteps]
      | succ m =>
        rw [show runSteps r db (s :: rest) (some (m + 1))
            = runSteps r (applyStep r db s) rest (some m) from rfl, ih]
        simp only [decide_eq_decide, List.length_cons]
        omega

theorem processHeights_count (env : Nat → UnitBehavior) (heights : List Nat) :
    ∀ (count : Nat) (db : Database),
      (processHeights env heights (count, db)).1
        = count + (heights.filter (unitCommits env)).length := by
  induction heights with
  | nil => intro count db; simp [processHeights]
  | cons h rest ih =>
    intro count db
    cases hf : (env h).fetched with
    | none =>
      have hc : unitCommits env h = false := by simp [unitCommits, hf]
      rw [show processHeights env (h :: rest) (count, db)
          = processHeights env rest (count, db) from by simp [processHeights, hf],
        ih, List.filter_cons, hc]
      simp
    | some r =>
      have hcommit : unitCommits env h = (persistUnit db r (env h).storeFailAt).2 := by
        rw [persistUnit, runSteps_snd]
        cases hfa : (env h).storeFailAt <;> simp [unitCommits, hf, hfa]
      cases hb : (persistUnit db r (env h).storeFailAt).2 with
      | true =>
        have htrue : unitCommits env h = true := hcommit.trans hb
        rw [show processHeights env (h :: rest) (count, db)
            = processHeights env rest
                (count + 1, (persistUnit db r (env h).storeFailAt).1) from by
              simp [processHeights, hf, hb],
          ih, List.filter_cons, htrue]
        simp only [if_true, List.length_cons]
        omega
      | false =>
        have hfalse : unitCommits env h = false := hcommit.trans hb
        rw [show processHeights env (h :: rest) (count, db)
            = processHeights env rest
                (count, (persistUnit db r (env h).storeFailAt).1) from by
              simp [processHeights, hf, hb],
          ih, List.filter_cons, hfalse]
        simp

/-- C7: within one sub-range, `process_batch` skips a failed unit (fetch
failure or a raising store statement) and keeps processing every later
height; the returned committed count is exactly the number of units that
fetched and stored cleanly — it excludes precisely the failed units.  On
the spec's scenario (unit 42 fails in a sub-range 42–50, units 43–50
commit) the count is 8. -/
theorem c7_unit_failures_skipped (env : Nat → UnitBehavior) (db : Database)
    (startHeight endHeight : Nat) :
    (process_batch env db startHeight endHeight).1
      = ((List.range' startHeight (endHeight + 1 - startHeight)).filter
          (unitCommits env)).length ∧
    (process_batch failing42Env emptyDb 42 50).1 = 8 := by
  constructor
  · rw [process_batch, processHeights_count]
    omega
  · decide

theorem mainLoop_length (latestAt wmAfter : Nat → Nat) :
    ∀ (fuel i wm : Nat), (mainLoop latestAt wmAfter fuel i wm).length = fuel := by
  intro fuel
  induction fuel with
  | zero => intro i wm; rfl
  | succ n ih =>
    intro i wm
    cases hc : mainCycle wm (latestAt i) <;> simp [mainLoop, hc, ih]

/-- C8: each cycle of `main()`'s loop computes `start = watermark + 1`;
when `start > latest` it sleeps the fixed 5-second poll interval and
re-checks without invoking the batch coordinator, and exactly otherwise it
runs the coordinator over `[start, latest]` and loops immediately (the
`ingest` action carries no sleep); observed for any number of cycles, the
loop emits one action per cycle with no terminal state — it stops only by
an external signal. -/
theorem c8_progress_loop (wm latest : Nat) (latestAt wmAfter : Nat → Nat)
    (fuel i : Nat) :
    (mainCycle wm latest = .sleepPoll 5 ↔ latest < wm + 1) ∧
    (wm + 1 ≤ latest → mainCycle wm latest = .ingest (wm + 1) latest) ∧
    (mainLoop latestAt wmAfter fuel i wm).length = fuel := by
  refine ⟨?_, ?_, mainLoop_length latestAt wmAfter fuel i wm⟩
  · by_cases h : latest < wm + 1
    · simp [mainCycle, h]
    · simp [mainCycle, h]
  · intro h
    have h' : ¬ latest < wm + 1 := Nat.not_lt.mpr h
    simp [mainCycle, h']

/-- Witness for the C8 theorem at concrete watermarks and heights. -/
theorem c8_progress_loop_witness :
    mainCycle 5 3 = .sleepPoll 5 ∧
    mainCycle 5 9 = .ingest 6 9 ∧
    (mainLoop (fun _ => 7) (fun _ => 7) 3 0 0).length = 3 :=
  ⟨(c8_progress_loop 5 3 (fun _ => 7) (fun _ => 7) 3 0).1.mpr (by decide),
   (c8_progress_loop 5 9 (fun _ => 7) (fun _ => 7) 3 0).2.1 (by decide),
   (c8_progress_loop 0 0 (fun _ => 7) (fun _ => 7) 3 0).2.2⟩

end BeaconIngestion

namespace UmeeMonitor

/-- C9: `get_req` polls by bare self-recursion: as long as the endpoint
answers HTTP 200 with an empty `aggregate_votes` list it calls itself again
with no attempt limit and no backoff — for *every* observation depth `fuel`
the call is still recursing (`none`), so its recursion depth is unbounded
under persistently empty responses; it returns data only once a non-empty
vote list arrives, and a non-200 status hits `print_error`, which exits the
process. -/
theorem c9_get_req_unbounded_recursion (resps : Nat → VotesResponse) :
    ((∀ i, (resps i).statusCode = 200 ∧ (resps i).aggregateVotes = []) →
      ∀ fuel i, get_req resps fuel i = none) ∧
    (∀ fuel i vs, get_req resps fuel i = some (.votes vs) → vs ≠ []) ∧
    (∀ fuel i, (resps i).statusCode ≠ 200 →
      get_req resps (fuel + 1) i = some .exitError) := by
  refine ⟨?_, ?_, ?_⟩
  · intro h fuel
    induction fuel with
    | zero => intro i; rfl
    | succ n ih =>
      intro i
      have h200 := (h i).1
      have hempty := (h i).2
      simp only [get_req, h200, hempty, if_pos rfl]
      simpa using ih (i + 1)
  · intro fuel
    induction fuel with
    | zero => intro i vs hcontra; exact Option.noConfusion hcontra
    | succ n ih =>
      intro i vs hsome
      by_cases h200 : (resps i).statusCode = 200
      · by_cases hlen : (resps i).aggregateVotes.length > 0
        · simp only [get_req, h200, if_pos rfl, if_pos hlen] at hsome
          have hvs : (resps i).aggregateVotes = vs :=
            GetReqOutcome.votes.inj (Option.some.inj hsome)
          intro hnil
          rw [hnil] at hvs
          rw [hvs] at hlen
          exact Nat.lt_irrefl 0 hlen
        · simp only [get_req, h200, if_pos rfl, if_neg hlen] at hsome
          exact ih (i + 1) vs hsome
      · simp only [get_req, if_neg h200] at hsome
        exact absurd (Option.some.inj hsome)
            (fun hcontra => GetReqOutcome.noConfusion hcontra)
  · intro fuel i h
    simp [get_req, h]

/-- Witness for the C9 theorem: a stream of persistently empty 200 responses
keeps `get_req` recursing past depth 7, and a 500 response exits. -/
theorem c9_get_req_unbounded_recursion_witness :
    get_req (fun _ => ⟨200, []⟩) 7 0 = none ∧
    get_req (fun _ => ⟨500, []⟩) 1 0 = some .exitError :=
  ⟨(c9_get_req_unbounded_recursion (fun _ => ⟨200, []⟩)).1
      (fun _ => ⟨rfl, rfl⟩) 7 0,
   (c9_get_req_unbounded_recursion (fun _ => ⟨500, []⟩)).2.2 0 0 (by decide)⟩

end UmeeMonitor

namespace BeacondMonitor

theorem countBlocks_counts_le (addrs : List String)
    (blockAt : Nat → Option BlockView) (heights : List Nat) :
    ∀ (checked : Nat) (counts : String → Nat),
      (∀ a, counts a ≤ checked) →
      ∀ a, (countBlocks addrs blockAt heights checked counts).2 a
          ≤ (countBlocks addrs blockAt heights checked counts).1 := by
  induction heights with
  | nil => intro checked counts hinv a; exact hinv a
  | cons h rest ih =>
    intro checked counts hinv a
    cases hb : blockAt h with
    | none =>
      rw [show countBlocks addrs blockAt (h :: rest) checked counts
          = countBlocks addrs blockAt rest checked counts from by
            simp [countBlocks, hb]]
      exact ih checked counts hinv a
    | some bv =>
      simp only [countBlocks, hb]
      split
      · exact Nat.le_succ_of_le (hinv a)
      · split
        · exact ih (checked + 1) counts
            (fun a' => Nat.le_succ_of_le (hinv a')) a
        · refine ih (checked + 1) _ (fun a' => ?_) a
          by_cases hcase : addrs.contains a' && signedInBlock bv a'
          · simp only [hcase, if_pos]
            exact Nat.succ_le_succ (hinv a')
          · simp only [hcase]
            exact Nat.le_succ_of_le (hinv a')

/-- C10: at the end of a monitoring cycle, for every monitored address the
per-address signed counter never exceeds the number of blocks actually
checked; the reported signed count is also capped at the blocks checked; the
reported signing percentage lies between 0 and 100; with zero blocks checked
the printed percentage is the `else`-branch 0; and the division inside
`update_metrics` cannot escape as an unhandled error — with a zero total the
caught `ZeroDivisionError` simply produces no metric update. -/
theorem c10_reported_counts_bounded (addrs : List String)
    (blockAt : Nat → Option BlockView) (heights : List Nat) (addr : String) :
    let res := monitorCycle addrs blockAt heights
    let rep := reportFor res.1 res.2 addr
    res.2 addr ≤ res.1 ∧
    rep.1 ≤ res.1 ∧
    0 ≤ rep.2.2 ∧ rep.2.2 ≤ 100 ∧
    (res.1 = 0 → rep.2.2 = 0) ∧
    (rep.2.1 = 0 → update_metrics rep.1 rep.2.1 = none) := by
  refine ⟨?_, ?_, ?_, ?_, ?_, ?_⟩
  · exact countBlocks_counts_le addrs blockAt heights 0 (fun _ => 0)
      (fun _ => Nat.le_refl 0) addr
  · exact Nat.le_trans (Nat.min_le_right _ _) (Nat.min_le_left _ _)
  · show (0 : ℚ) ≤ (if 0 < min (monitorCycle addrs blockAt heights).1 100 then _ else 0)
    split
    · positivity
    · exact le_refl 0
  · show (if 0 < min (monitorCycle addrs blockAt heights).1 100 then
        ((min ((monitorCycle addrs blockAt heights).2 addr)
            (min (monitorCycle addrs blockAt heights).1 100) : Nat) : ℚ)
          / ((min (monitorCycle addrs blockAt heights).1 100 : Nat) : ℚ) * 100
      else 0) ≤ 100
    split
    next hpos =>
      have hle : min ((monitorCycle addrs blockAt heights).2 addr)
          (min (monitorCycle addrs blockAt heights).1 100)
          ≤ min (monitorCycle addrs blockAt heights).1 100 :=
        Nat.min_le_right _ _
      have hq : ((min ((monitorCycle addrs blockAt heights).2 addr)
          (min (monitorCycle addrs blockAt heights).1 100) : Nat) : ℚ)
          / ((min (monitorCycle addrs blockAt heights).1 100 : Nat) : ℚ) ≤ 1 := by
        rw [div_le_one (by exact_mod_cast hpos)]
        exact_mod_cast hle
      calc ((min ((monitorCycle addrs blockAt heights).2 addr)
              (min (monitorCycle addrs blockAt heights).1 100) : Nat) : ℚ)
            / ((min (monitorCycle addrs blockAt heights).1 100 : Nat) : ℚ) * 100
          ≤ 1 * 100 := by
            exact mul_le_mul_of_nonneg_right hq (by norm_num)
        _ = 100 := one_mul 100
    · norm_num
  · intro hzero
    show (if 0 < min (monitorCycle addrs blockAt heights).1 100 then _ else (0 : ℚ)) = 0
    rw [hzero]
    norm_num
  · intro hzero
    show update_metrics _ (min (monitorCycle addrs blockAt heights).1 100) = none
    have : min (monitorCycle addrs blockAt heights).1 100 = 0 := hzero
    rw [this]
    rfl

/-- Witness for the C10 theorem on a cycle in which no block could be
fetched: zero blocks checked, printed percentage 0, and the guarded
`update_metrics` division produces no update instead of an error. -/
theorem c10_reported_counts_bounded_witness :
    (reportFor (monitorCycle ["a"] (fun _ => none) [1, 2]).1
        (monitorCycle ["a"] (fun _ => none) [1, 2]).2 "a").2.2 = 0 ∧
    update_metrics
      (reportFor (monitorCycle ["a"] (fun _ => none) [1, 2]).1
          (monitorCycle ["a"] (fun _ => none) [1, 2]).2 "a").1
      (reportFor (monitorCycle ["a"] (fun _ => none) [1, 2]).1
          (monitorCycle ["a"] (fun _ => none) [1, 2]).2 "a").2.1 = none :=
  ⟨(c10_reported_counts_bounded ["a"] (fun _ => none) [1, 2] "a").2.2.2.2.1 rfl,
   (c10_reported_counts_bounded ["a"] (fun _ => none) [1, 2] "a").2.2.2.2.2 rfl⟩

end BeacondMonitor

namespace BeaconIngestion

theorem digitsToNat_from (l : List Char) : ∀ n : Nat,
    l.foldl (fun acc c => acc * 10 + (c.toNat - 48)) n
      = n * 10 ^ l.length + digitsToNat l := by
  induction l with
  | nil => intro n; simp [digitsToNat]
  | cons c t ih =>
    intro n
    have hc : digitsToNat (c :: t)
        = (c.toNat - 48) * 10 ^ t.length + digitsToNat t := by
      show t.foldl (fun acc x => acc * 10 + (x.toNat - 48)) (0 * 10 + (c.toNat - 48)) = _
      rw [ih]
      ring
    show t.foldl (fun acc x => acc * 10 + (x.toNat - 48)) (n * 10 + (c.toNat - 48)) = _
    rw [ih, hc, List.length_cons]
    ring

theorem digitsToNat_append (a b : List Char) :
    digitsToNat (a ++ b) = digitsToNat a * 10 ^ b.length + digitsToNat b := by
  show (a ++ b).foldl (fun acc c => acc * 10 + (c.toNat - 48)) 0 = _
  rw [List.foldl_append]
  exact digitsToNat_from b (digitsToNat a)

theorem digitsToNat_lt (l : List Char) (h : ∀ c ∈ l, isDigitChar c = true) :
    digitsToNat l < 10 ^ l.length := by
  induction l with
  | nil => simp [digitsToNat]
  | cons c t ih =>
    have hone : digitsToNat [c] = c.toNat - 48 := by simp [digitsToNat]
    have hsplit : digitsToNat (c :: t)
        = (c.toNat - 48) * 10 ^ t.length + digitsToNat t := by
      rw [show c :: t = [c] ++ t from rfl, digitsToNat_append, hone]
    have hc : c.toNat - 48 ≤ 9 := by
      have := h c (List.mem_cons_self c t)
      simp only [isDigitChar, Bool.and_eq_true, decide_eq_true_iff] at this
      omega
    have ht : digitsToNat t < 10 ^ t.length :=
      ih fun x hx => h x (List.mem_cons_of_mem c hx)
    rw [hsplit, List.length_cons]
    calc (c.toNat - 48) * 10 ^ t.length + digitsToNat t
        < (c.toNat - 48) * 10 ^ t.length + 10 ^ t.length := by omega
      _ = (c.toNat - 48 + 1) * 10 ^ t.length := by ring
      _ ≤ 10 * 10 ^ t.length := Nat.mul_le_mul_right _ (by omega)
      _ = 10 ^ (t.length + 1) := by ring

theorem div1000_truncMillis (d : List Char)
    (hd : (d.take 6).all isDigitChar = true) :
    digitsToNat (d.take 6) * 10 ^ (6 - (d.take 6).length) / 1000
      = truncMillis d := by
  rw [truncMillis]
  by_cases hlen : d.length ≤ 3
  · have h6 : d.take 6 = d := List.take_of_length_le (by omega)
    have h3 : d.take 3 = d := List.take_of_length_le hlen
    have hmin : min d.length 3 = d.length := by omega
    rw [h6, h3, hmin]
    have hexp : 6 - d.length = (3 - d.length) + 3 := by omega
    have h1000 : (10 : Nat) ^ 3 = 1000 := by norm_num
    rw [hexp, pow_add, h1000, ← Nat.mul_assoc,
      Nat.mul_div_cancel _ (by norm_num : (0 : Nat) < 1000)]
  · have hmin3 : min d.length 3 = 3 := by omega
    rw [hmin3, pow_zero, mul_one]
    have hlen6 : (d.take 6).length = min 6 d.length := List.length_take 6 d
    have hl4 : 4 ≤ (d.take 6).length := by omega
    have hl6 : (d.take 6).length ≤ 6 := by omega
    have htake3 : (d.take 6).take 3 = d.take 3 := by
      rw [List.take_take]; norm_num
    have hm : ((d.take 6).drop 3).length = (d.take 6).length - 3 :=
      List.length_drop 3 (d.take 6)
    have hr : digitsToNat ((d.take 6).drop 3) < 10 ^ ((d.take 6).drop 3).length := by
      refine digitsToNat_lt _ fun c hc => ?_
      exact List.all_eq_true.mp hd c (List.drop_subset 3 (d.take 6) hc)
    have hnum : digitsToNat (d.take 6)
        = digitsToNat (d.take 3) * 10 ^ ((d.take 6).drop 3).length
          + digitsToNat ((d.take 6).drop 3) := by
      conv_lhs => rw [← List.take_append_drop 3 (d.take 6)]
      rw [digitsToNat_append, htake3]
    have hexp3 : ((d.take 6).drop 3).length + (6 - (d.take 6).length) = 3 := by
      omega
    have hsmall : digitsToNat ((d.take 6).drop 3) * 10 ^ (6 - (d.take 6).length)
        < 1000 := by
      calc digitsToNat ((d.take 6).drop 3) * 10 ^ (6 - (d.take 6).length)
          < 10 ^ ((d.take 6).drop 3).length * 10 ^ (6 - (d.take 6).length) :=
            Nat.mul_lt_mul_of_pos_right hr (Nat.pos_pow_of_pos _ (by norm_num))
        _ = 10 ^ (((d.take 6).drop 3).length + (6 - (d.take 6).length)) :=
            (pow_add 10 _ _).symm
        _ = 1000 := by rw [hexp3]; norm_num
    rw [hnum]
    have hexpand : (digitsToNat (d.take 3) * 10 ^ ((d.take 6).drop 3).length
          + digitsToNat ((d.take 6).drop 3)) * 10 ^ (6 - (d.take 6).length)
        = 1000 * digitsToNat (d.take 3)
          + digitsToNat ((d.take 6).drop 3) * 10 ^ (6 - (d.take 6).length) := by
      have : 10 ^ ((d.take 6).drop 3).length * 10 ^ (6 - (d.take 6).length)
          = 1000 := by
        rw [← pow_add, hexp3]; norm_num
      calc (digitsToNat (d.take 3) * 10 ^ ((d.take 6).drop 3).length
              + digitsToNat ((d.take 6).drop 3)) * 10 ^ (6 - (d.take 6).length)
          = digitsToNat (d.take 3)
              * (10 ^ ((d.take 6).drop 3).length * 10 ^ (6 - (d.take 6).length))
            + digitsToNat ((d.take 6).drop 3) * 10 ^ (6 - (d.take 6).length) := by
            ring
        _ = 1000 * digitsToNat (d.take 3)
            + digitsToNat ((d.take 6).drop 3) * 10 ^ (6 - (d.take 6).length) := by
            rw [this]; ring
    rw [hexpand, Nat.mul_add_div (by norm_num : (0 : Nat) < 1000),
      Nat.div_eq_of_lt hsmall, Nat.add_zero]

theorem splitDot_ne_nil (l : List Char) : splitDot l ≠ [] := by
  cases l with
  | nil => simp [splitDot]
  | cons c cs =>
    simp only [splitDot]
    cases hs : splitDot cs with
    | nil => simp
    | cons p ps => by_cases hc : c = '.' <;> simp [hc]

theorem contains_dot_of_splitDot_pair : ∀ {l a b : List Char},
    splitDot l = [a, b] → l.contains '.' = true := by
  intro l
  induction l with
  | nil => intro a b h; simp [splitDot] at h
  | cons c cs ih =>
    intro a b h
    cases hs : splitDot cs with
    | nil => exact absurd hs (splitDot_ne_nil cs)
    | cons p ps =>
      simp only [splitDot, hs] at h
      by_cases hc : c = '.'
      · simp [List.contains_cons, hc]
      · rw [if_neg hc] at h
        have hps : ps = [b] := (List.cons.inj h).2
        have hcs : cs.contains '.' = true := ih (a := p) (b := b) (by rw [hs, hps])
        rw [List.contains_cons]
        simp only [Bool.or_eq_true]
        right
        exact hcs

theorem parseTimestampCore_eq (l mainPart frac : List Char) (dt : PyDateTime)
    (us : Nat) (hsplit : splitDot (rstripZ l) = [mainPart, frac])
    (hmain : parseMainPart mainPart = some dt)
    (hfrac : parseFrac (frac.take 6) = some us) :
    parseTimestampCore l = some { dt with microsecond := us } := by
  have hcontains : (rstripZ l).contains '.' = true :=
    contains_dot_of_splitDot_pair hsplit
  simp only [parseTimestampCore, hcontains, if_true, hsplit, hmain, hfrac]

/-- C5: for every input whose (`'Z'`-stripped) text splits into exactly a
main part that `strptime('%Y-%m-%dT%H:%M:%S')` accepts and a fractional
part whose first six digits `%f` accepts, `_parse_timestamp` keeps the
parsed instant and emits the millisecond value obtained by *truncating* the
fractional digits to three — never rounding (digits beyond the third are
discarded entirely); and on any malformed input the function returns the
current wall-clock time instead of raising. -/
theorem c5_timestamp_truncation (l mainPart frac : List Char) (dt : PyDateTime)
    (us : Nat) (hsplit : splitDot (rstripZ l) = [mainPart, frac])
    (hmain : parseMainPart mainPart = some dt)
    (hfrac : parseFrac (frac.take 6) = some us) :
    parseTimestampCore l = some { dt with microsecond := us } ∧
    outputMillis { dt with microsecond := us } = truncMillis frac ∧
    (∀ (now : PyDateTime) (s : List Char),
      parseTimestampCore s = none → parse_timestamp now s = now) := by
  refine ⟨parseTimestampCore_eq l mainPart frac dt us hsplit hmain hfrac, ?_, ?_⟩
  · rw [parseFrac] at hfrac
    split at hfrac
    · exact Option.noConfusion hfrac
    next hguard =>
      have hus : us = digitsToNat (frac.take 6) * 10 ^ (6 - (frac.take 6).length) :=
        (Option.some.inj hfrac).symm
      have hall : (frac.take 6).all isDigitChar = true := by
        rcases Bool.eq_false_or_eq_true ((frac.take 6).all isDigitChar) with ht | hf
        · exact ht
        · exact absurd (by simp [hf]) hguard
      show us / 1000 = truncMillis frac
      rw [hus]
      exact div1000_truncMillis frac hall
  · intro now s h
    rw [parse_timestamp, h]
    rfl

/-- Witness for the C5 theorem: the spec's test vector
`"2024-01-01T00:00:00.123456789Z"` parses to microseconds `123456` and
yields millisecond value 123 (not 124), and a malformed input falls back to
the supplied wall-clock time. -/
theorem c5_timestamp_truncation_witness :
    parseTimestampCore "2024-01-01T00:00:00.123456789Z".data
      = some ⟨2024, 1, 1, 0, 0, 0, 123456⟩ ∧
    outputMillis ⟨2024, 1, 1, 0, 0, 0, 123456⟩ = 123 ∧
    parse_timestamp ⟨2025, 6, 1, 12, 0, 0, 0⟩ "not-a-timestamp".data
      = ⟨2025, 6, 1, 12, 0, 0, 0⟩ := by
  have h := c5_timestamp_truncation "2024-01-01T00:00:00.123456789Z".data
    "2024-01-01T00:00:00".data "123456789".data ⟨2024, 1, 1, 0, 0, 0, 0⟩ 123456
    (by decide) (by decide) (by decide)
  exact ⟨h.1, by decide, h.2.2 ⟨2025, 6, 1, 12, 0, 0, 0⟩ _ (by decide)⟩

end BeaconIngestion
